import Mathlib

/-!
Verification of the question-parsing core of `pdf_question_extractor.py`
(class `PDFQuestionExtractor`).  Strings are modelled as `List Char`; the
specific Python regular expressions used by the source are embedded as
explicit, structurally recursive scans with the same matching semantics
(leftmost match, greedy `\s*`/`\d+`, non-greedy capture up to a boundary
lookahead).  The Python `$` anchor also matches just before a final
newline; for the two captures where that could matter the captured text is
immediately passed through `.strip()`, which erases the difference, so `$`
is modelled as end-of-string.
-/

namespace PDFQE

/-- ASCII whitespace, the characters matched by Python's `\s` and stripped
by `str.strip()` (the model is restricted to ASCII text). -/
def isWS (c : Char) : Bool :=
  c == ' ' || c == '\t' || c == '\n' || c == '\r' || c == '\x0b' || c == '\x0c'

/-- ASCII decimal digit, Python's `\d`. -/
def isDigitC (c : Char) : Bool := '0' ≤ c && c ≤ '9'

/-- Python `str.lower()` (ASCII). -/
def lowerStr (s : List Char) : List Char := s.map Char.toLower

/-- Python `str.strip()`: drop leading and trailing whitespace. -/
def pyStrip (s : List Char) : List Char :=
  ((s.dropWhile isWS).reverse.dropWhile isWS).reverse

/-- Collapse runs of adjacent spaces to a single space (helper for
`re.sub(r'\s+', ' ', ...)`). -/
def squeezeSp : List Char → List Char
  | [] => []
  | [c] => [c]
  | c :: d :: rest =>
    if c == ' ' && d == ' ' then squeezeSp (d :: rest)
    else c :: squeezeSp (d :: rest)

/-- `re.sub(r'\s+', ' ', s)`: every maximal whitespace run becomes one
space. -/
def collapseWS (s : List Char) : List Char :=
  squeezeSp (s.map (fun c => if isWS c then ' ' else c))

/-- Characters kept by the control-character filter of `sanitize_text`
(line 91): newline, tab, or code point ≥ 32. -/
def keepChar (c : Char) : Bool :=
  c == '\n' || c == '\t' || decide (32 ≤ c.toNat)

/-- `str.replace('\r\n', '\n')`: left-to-right, non-overlapping. -/
def replCRLF : List Char → List Char
  | [] => []
  | [c] => [c]
  | c :: d :: rest =>
    if c == '\r' && d == '\n' then '\n' :: replCRLF rest
    else c :: replCRLF (d :: rest)

/-- `PDFQuestionExtractor.sanitize_text` (lines 64-93): empty guard, NUL
removal, CRLF/CR normalisation, control-character filter, strip. -/
def sanitize_text (text : List Char) : List Char :=
  if text = [] then []
  else
    let t1 := text.filter (fun c => !(c == '\x00'))
    let t2 := replCRLF t1
    let t3 := t2.map (fun c => if c == '\r' then '\n' else c)
    let t4 := t3.filter keepChar
    pyStrip t4

/-- Case-insensitive literal match at the front of `s` (the effect of
`re.IGNORECASE` on an already-lowercase literal pattern). -/
def ciAt (pat s : List Char) : Bool := decide (lowerStr (s.take pat.length) = pat)

/-- Suffix of `s` after the first occurrence of the literal `pat`
(leftmost-match semantics of `re.search`); `none` if `pat` never occurs. -/
def afterFirst (pat : List Char) : List Char → Option (List Char)
  | [] => if pat.isPrefixOf ([] : List Char) then some [] else none
  | c :: cs =>
    if pat.isPrefixOf (c :: cs) then some ((c :: cs).drop pat.length)
    else afterFirst pat cs

/-- Text of `s` before the first occurrence of the literal `pat`; `none`
if `pat` never occurs. -/
def beforeFirst (pat : List Char) : List Char → Option (List Char)
  | [] => if pat.isPrefixOf ([] : List Char) then some [] else none
  | c :: cs =>
    if pat.isPrefixOf (c :: cs) then some []
    else (beforeFirst pat cs).map (c :: ·)

/-- Case-insensitive version of `afterFirst` (`pat` must be lowercase). -/
def afterFirstCI (pat : List Char) : List Char → Option (List Char)
  | [] => if ciAt pat ([] : List Char) then some [] else none
  | c :: cs =>
    if ciAt pat (c :: cs) then some ((c :: cs).drop pat.length)
    else afterFirstCI pat cs

/-- Non-greedy capture: the text up to the first position where `pat`
matches case-insensitively, or the whole list if it never does. -/
def takeUntilCI (pat : List Char) : List Char → List Char
  | [] => []
  | c :: cs => if ciAt pat (c :: cs) then [] else c :: takeUntilCI pat cs

/-- Non-greedy capture up to the first position where `stop` fires, or
the whole list (the `$` alternative of the lookahead). -/
def takeUntilStop (stop : List Char → Bool) : List Char → List Char
  | [] => []
  | c :: cs => if stop (c :: cs) then [] else c :: takeUntilStop stop cs

/-- The literal `"ANSWER:"` boundary used (case-sensitively) inside
`extract_option`'s pattern. -/
def answerMarker : List Char := "ANSWER:".data

/-- The boundary lookahead `(?=L'\.|ANSWER:)` of `extract_option`, for
next letter `nextL`. -/
def optStop (nextL : Char) (s : List Char) : Bool :=
  [nextL, '.'].isPrefixOf s || answerMarker.isPrefixOf s

/-- `PDFQuestionExtractor.extract_option` (lines 339-354): regex
`f'{L}\.\s*(.*?)(?={next}\.|ANSWER:|$)'` with `re.DOTALL`, then
`.strip()`; empty string when `"L."` does not occur. -/
def extract_option (text : List Char) (letter : Char) : List Char :=
  match afterFirst [letter, '.'] text with
  | none => []
  | some rest =>
    pyStrip (takeUntilStop (optStop (Char.ofNat (letter.toNat + 1)))
      (rest.dropWhile isWS))

/-- The statement regex `r'^(.*?)(?=A\.)'` with `re.DOTALL` followed by
`.strip()`, else `""` (lines 295-296): text before the first `"A."`. -/
def extractStatement (content : List Char) : List Char :=
  match beforeFirst ['A', '.'] content with
  | some pre => pyStrip pre
  | none => []

/-- The answer regex `r'ANSWER:\s*([A-D])'` with `re.IGNORECASE`
(line 305): leftmost position with a full match, capturing the letter. -/
def isAnswerLetter (c : Char) : Bool :=
  ('A' ≤ c && c ≤ 'D') || ('a' ≤ c && c ≤ 'd')

def findAnswer : List Char → Option Char
  | [] => none
  | c :: cs =>
    if ciAt "answer:".data (c :: cs) then
      match ((c :: cs).drop 7).dropWhile isWS with
      | d :: _ => if isAnswerLetter d then some d else findAnswer cs
      | [] => findAnswer cs
    else findAnswer cs

/-- The explanation field of a content block (lines 309-313): capture of
`r'Explanation:(.*?)(?=QUESTION NO:|$)'` with `re.DOTALL | re.IGNORECASE`,
stripped, then whitespace-collapsed and stripped again. -/
def explanationOf (content : List Char) : List Char :=
  let raw : List Char :=
    match afterFirstCI "explanation:".data content with
    | none => []
    | some rest => pyStrip (takeUntilCI "question no:".data rest)
  pyStrip (collapseWS raw)

/-- `PDFQuestionExtractor.extract_reference` (lines 207-249).  After the
`if not explanation` guard the body assigns `reference_patterns` (which is
never read) and then runs a pasted copy of `parse_questions` whose first
live statement is `re.split(question_pattern, text)` where `text` is an
undefined name, so every call with a non-empty explanation raises
`NameError`.  The raise is modelled as `Except.error ()`. -/
def extract_reference (explanation : List Char) :
    Except Unit (List Char × Option (List Char)) :=
  if explanation = [] then .ok ([], none) else .error ()

/-- The keyword list `image_indicators` of `detect_question_type`
(lines 262-267). -/
def image_indicators : List (List Char) :=
  ["image".data, "picture".data, "diagram".data, "figure".data,
   "screenshot".data, "shown below".data, "shown above".data,
   "refer to the".data, "see the".data, "following image".data,
   "following diagram".data, "following figure".data, "exhibit".data,
   "illustration".data]

/-- Spec-level predicate for the classifier: some image keyword occurs
(case-insensitively) in the combined statement-plus-options text. -/
def KeywordHit (question_statement options : List Char) : Prop :=
  ∃ ind ∈ image_indicators,
    ind <:+: lowerStr (question_statement ++ ' ' :: options)

/-- Python's `pat in s` substring test. -/
def containsSub (pat : List Char) : List Char → Bool
  | [] => pat.isEmpty
  | c :: cs => pat.isPrefixOf (c :: cs) || containsSub pat cs

/-- `PDFQuestionExtractor.detect_question_type` (lines 251-281). -/
def detect_question_type (question_statement options : List Char) : List Char :=
  let full_text := lowerStr (question_statement ++ ' ' :: options)
  if image_indicators.any (fun ind => containsSub ind full_text) then "image".data
  else if (pyStrip question_statement).length < 20 then "image".data
  else "text".data

/-- The record assembled by `parse_question_content` (lines 323-334). -/
structure Question where
  question_no : List Char
  question_type : List Char
  question_statement : List Char
  option_A : List Char
  option_B : List Char
  option_C : List Char
  option_D : List Char
  correct_answer : List Char
  explanation : List Char
  reference : List Char
deriving DecidableEq

/-- `PDFQuestionExtractor.parse_question_content` (lines 283-337).  The
`try/except` that turns any internal raise into `None` is modelled by the
`Except` result of `extract_reference`, the only raising operation in the
body. -/
def parse_question_content (question_no content : List Char) : Option Question :=
  let question_statement := extractStatement content
  let option_a := extract_option content 'A'
  let option_b := extract_option content 'B'
  let option_c := extract_option content 'C'
  let option_d := extract_option content 'D'
  let correct_answer : List Char :=
    match findAnswer content with
    | some d => [d.toUpper]
    | none => []
  let explanation := explanationOf content
  match extract_reference explanation with
  | .error _ => none
  | .ok (clean_explanation, reference) =>
    let all_options := option_a ++ ' ' :: option_b ++ ' ' :: option_c ++ ' ' :: option_d
    let question_type := detect_question_type question_statement all_options
    some
      { question_no := sanitize_text question_no
        question_type := question_type
        question_statement := sanitize_text question_statement
        option_A := sanitize_text option_a
        option_B := sanitize_text option_b
        option_C := sanitize_text option_c
        option_D := sanitize_text option_d
        correct_answer := sanitize_text correct_answer
        explanation := sanitize_text clean_explanation
        reference := match reference with
          | some r => sanitize_text r
          | none => [] }

/-- The split marker of `parse_questions`: `r'QUESTION NO:\s*(\d+)'`. -/
def marker : List Char := "QUESTION NO:".data

/-- One match attempt of the split pattern at the head of `t`: the literal
marker, then greedy whitespace, then a non-empty greedy digit run (the
captured group); returns the capture and the remainder after the match. -/
def tryMarker (t : List Char) : Option (List Char × List Char) :=
  if marker.isPrefixOf t then
    if ((t.drop 12).dropWhile isWS).takeWhile isDigitC = [] then none
    else some (((t.drop 12).dropWhile isWS).takeWhile isDigitC,
      ((t.drop 12).dropWhile isWS).dropWhile isDigitC)
  else none

/-- Fuel-driven scan realising `re.split(r'QUESTION NO:\s*(\d+)', t)`:
returns the text before the first match and the list of
(capture, text-up-to-next-match) pairs. -/
def scanQAux : Nat → List Char → List Char × List (List Char × List Char)
  | 0, _ => ([], [])
  | _ + 1, [] => ([], [])
  | fuel + 1, c :: cs =>
    match tryMarker (c :: cs) with
    | some (cap, rest) =>
      let r := scanQAux fuel rest
      ([], (cap, r.1) :: r.2)
    | none =>
      let r := scanQAux fuel cs
      (c :: r.1, r.2)

def scanQ (t : List Char) : List Char × List (List Char × List Char) :=
  scanQAux t.length t

/-- The (question-number, content-block) pairs produced by the loop of
`parse_questions` (lines 198-201): each capture is `.strip()`ed and paired
with the following split piece. -/
def segPairs (t : List Char) : List (List Char × List Char) :=
  (scanQ t).2.map (fun p => (pyStrip p.1, p.2))

/-- The per-pair body of the loop (lines 203-205): parse each block, keep
the successful records in order. -/
def processPairs (ps : List (List Char × List Char)) : List Question :=
  ps.filterMap (fun p => parse_question_content p.1 p.2)

/-- `PDFQuestionExtractor.parse_questions` (lines 187-205). -/
def parse_questions (t : List Char) : List Question :=
  processPairs (segPairs t)

/-- Number of positions of `t` at which the split pattern
`QUESTION NO:\s*(\d+)` matches (the claims' notion of a marker
occurrence). -/
def countMarker : List Char → Nat
  | [] => 0
  | c :: cs => (if (tryMarker (c :: cs)).isSome then 1 else 0) + countMarker cs

/-- A question segment of a well-formed input, for the Segmenter claims:
whitespace run `ws`, digit label `ds` and following content block `blk`,
spelling the text `"QUESTION NO:" ++ ws ++ ds ++ blk`. -/
def qSeg : List Char × List Char × List Char → List Char
  | (ws, ds, blk) => marker ++ ws ++ ds ++ blk

/-- Concatenated text of a list of question segments. -/
def segsText (L : List (List Char × List Char × List Char)) : List Char :=
  (L.map qSeg).flatten

/-- Well-formedness of a segment list: each whitespace run is whitespace,
each label a non-empty digit run, no block starts with a digit (which
would extend the captured label), and no occurrence of the marker starts
inside a block (including straddling into the next segment, whence the
`take 11`). -/
def wellFormedSegs : List (List Char × List Char × List Char) → Prop
  | [] => True
  | (ws, ds, blk) :: L =>
    (∀ c ∈ ws, isWS c = true) ∧ ds ≠ [] ∧ (∀ c ∈ ds, isDigitC c = true) ∧
    (∀ c, blk.head? = some c → isDigitC c = false) ∧
    ¬ marker <:+: blk ++ (segsText L).take 11 ∧
    wellFormedSegs L

/-! Helper lemmas about the scanning primitives. -/

theorem isPrefixOf_iff : ∀ (p s : List Char), p.isPrefixOf s = true ↔ p <+: s
  | [], s => by simp [List.isPrefixOf]
  | a :: as, [] => by simp [List.isPrefixOf]
  | a :: as, b :: bs => by
    show (a == b && as.isPrefixOf bs) = true ↔ _
    rw [Bool.and_eq_true, beq_iff_eq, isPrefixOf_iff as bs, List.cons_prefix_cons]

theorem dropWhile_idem (p : Char → Bool) (l : List Char) :
    (l.dropWhile p).dropWhile p = l.dropWhile p := by
  induction l with
  | nil => rfl
  | cons x xs ih =>
    by_cases h : p x = true
    · simp [List.dropWhile_cons, h, ih]
    · simp [List.dropWhile_cons, h]

theorem head?_dropWhile (p : Char → Bool) (l : List Char) (c : Char)
    (h : (l.dropWhile p).head? = some c) : p c = false := by
  induction l with
  | nil => simp at h
  | cons x xs ih =>
    cases hx : p x with
    | true => exact ih (by simpa [List.dropWhile_cons, hx] using h)
    | false =>
      simp [List.dropWhile_cons, hx] at h
      exact h ▸ hx

theorem mem_of_mem_pyStrip {c : Char} {s : List Char} (h : c ∈ pyStrip s) : c ∈ s := by
  unfold pyStrip at h
  rw [List.mem_reverse] at h
  have h2 := (List.dropWhile_sublist (l := (s.dropWhile isWS).reverse) isWS).mem h
  rw [List.mem_reverse] at h2
  exact (List.dropWhile_sublist isWS).mem h2

/-- The reversed-drop side of `pyStrip` yields a prefix of its input. -/
theorem rdrop_front_of (l : List Char) : ((l.reverse.dropWhile isWS).reverse) <+: l := by
  obtain ⟨t, ht⟩ := List.dropWhile_suffix (l := l.reverse) isWS
  exact ⟨t.reverse, by rw [← List.reverse_append, ht, List.reverse_reverse]⟩

theorem head?_of_pre {m a : List Char} (h : m <+: a) (hne : m ≠ []) :
    a.head? = m.head? := by
  obtain ⟨t, ht⟩ := h
  rcases m with _ | ⟨c, cs⟩
  · exact absurd rfl hne
  · rw [← ht]; rfl

theorem dropWhile_eq_self_of_head {l : List Char}
    (h : ∀ c, l.head? = some c → isWS c = false) : l.dropWhile isWS = l := by
  rcases l with _ | ⟨c, cs⟩
  · rfl
  · simp [List.dropWhile_cons, h c rfl]

theorem pyStrip_ld (s : List Char) : (pyStrip s).dropWhile isWS = pyStrip s := by
  apply dropWhile_eq_self_of_head
  intro c hc
  have hpre : pyStrip s <+: s.dropWhile isWS := rdrop_front_of _
  have hne : pyStrip s ≠ [] := by
    intro h; rw [h] at hc; exact Option.noConfusion hc
  exact head?_dropWhile isWS s c (by rw [head?_of_pre hpre hne]; exact hc)

theorem pyStrip_idem (s : List Char) : pyStrip (pyStrip s) = pyStrip s := by
  have h2 : (pyStrip s).reverse.dropWhile isWS = (pyStrip s).reverse := by
    unfold pyStrip
    rw [List.reverse_reverse, dropWhile_idem]
  rw [show pyStrip (pyStrip s)
        = (((pyStrip s).dropWhile isWS).reverse.dropWhile isWS).reverse from rfl,
    pyStrip_ld s, h2, List.reverse_reverse]

theorem pyStrip_eq_self {s : List Char}
    (h1 : ∀ c, s.head? = some c → isWS c = false)
    (h2 : ∀ c, s.getLast? = some c → isWS c = false) : pyStrip s = s := by
  unfold pyStrip
  rw [dropWhile_eq_self_of_head h1]
  have h3 : s.reverse.dropWhile isWS = s.reverse := by
    apply dropWhile_eq_self_of_head
    intro c hc
    exact h2 c (by rwa [List.head?_reverse] at hc)
  rw [h3, List.reverse_reverse]

theorem pyStrip_append_space {a : List Char} (hne : a ≠ [])
    (h1 : ∀ c, a.head? = some c → isWS c = false)
    (h2 : ∀ c, a.getLast? = some c → isWS c = false) :
    pyStrip (a ++ [' ']) = a := by
  unfold pyStrip
  have hld : (a ++ [' ']).dropWhile isWS = a ++ [' '] := by
    apply dropWhile_eq_self_of_head
    intro c hc
    rcases a with _ | ⟨x, xs⟩
    · exact absurd rfl hne
    · exact h1 c (by simpa using hc)
  have h3 : a.reverse.dropWhile isWS = a.reverse := by
    apply dropWhile_eq_self_of_head
    intro c hc
    exact h2 c (by rwa [List.head?_reverse] at hc)
  rw [hld, List.reverse_append,
    show ([' '] : List Char).reverse ++ a.reverse = ' ' :: a.reverse from rfl,
    List.dropWhile_cons]
  simp only [show isWS ' ' = true from rfl, if_true, h3, List.reverse_reverse]

theorem replCRLF_of_no_cr : ∀ (l : List Char), (∀ c ∈ l, c ≠ '\r') → replCRLF l = l
  | [], _ => rfl
  | [_], _ => rfl
  | c :: d :: rest, h => by
    have hc : c ≠ '\r' := h c (List.mem_cons_self _ _)
    have ih := replCRLF_of_no_cr (d :: rest) (fun x hx => h x (List.mem_cons_of_mem _ hx))
    simp [replCRLF, hc, ih]

theorem mem_sanitize {s : List Char} {c : Char} (h : c ∈ sanitize_text s) :
    keepChar c = true := by
  by_cases hs : s = []
  · subst hs; simp [sanitize_text] at h
  · simp only [sanitize_text, if_neg hs] at h
    exact (List.mem_filter.mp (mem_of_mem_pyStrip h)).2

theorem sanitize_eq_self {s : List Char} (hk : ∀ c ∈ s, keepChar c = true)
    (hs : pyStrip s = s) : sanitize_text s = s := by
  by_cases h0 : s = []
  · subst h0; rfl
  · have hnc : ∀ c ∈ s, c ≠ '\r' := by
      intro a ha he
      have hka := hk a ha
      rw [he] at hka
      exact absurd hka (by decide)
    have h1 : s.filter (fun c => !(c == '\x00')) = s := by
      rw [List.filter_eq_self]
      intro a ha
      have : a ≠ '\x00' := by
        intro he
        have hka := hk a ha
        rw [he] at hka
        exact absurd hka (by decide)
      simp [this]
    have h2 : replCRLF s = s := replCRLF_of_no_cr s hnc
    have h3 : s.map (fun c => if c == '\r' then '\n' else c) = s := by
      have := List.map_congr_left (l := s)
        (f := fun c => if c == '\r' then '\n' else c) (g := id)
        (fun a ha => by simp [hnc a ha])
      rw [this, List.map_id]
    have h4 : s.filter keepChar = s := List.filter_eq_self.mpr hk
    simp only [sanitize_text, if_neg h0, h1, h2, h3, h4, hs]

theorem sanitize_idem (s : List Char) :
    sanitize_text (sanitize_text s) = sanitize_text s := by
  by_cases h0 : s = []
  · subst h0; rfl
  · apply sanitize_eq_self (fun c hc => mem_sanitize hc)
    have hrw : sanitize_text s
        = pyStrip (((replCRLF (s.filter (fun c => !(c == '\x00')))).map
            (fun c => if c == '\r' then '\n' else c)).filter keepChar) := by
      simp only [sanitize_text, if_neg h0]
    rw [hrw, pyStrip_idem]

/-! Occurrence lemmas: how the leftmost-match scans interact with list
concatenation. -/

theorem infix_of_prefix_of {pat s : List Char} (h : pat <+: s) : pat <:+: s := by
  obtain ⟨t, ht⟩ := h
  exact ⟨[], t, by simpa using ht⟩

theorem infix_of_cons {pat l : List Char} {c : Char} (h : pat <:+: l) :
    pat <:+: c :: l := by
  obtain ⟨u, v, huv⟩ := h
  exact ⟨c :: u, v, by rw [← huv]; rfl⟩

theorem suffix_of_cons {u₂ xs : List Char} {x : Char} (h : u₂ <:+ xs) :
    u₂ <:+ x :: xs := by
  obtain ⟨w, hw⟩ := h
  exact ⟨x :: w, by rw [← hw]; rfl⟩

theorem infix_of_pre_suffix {pat s₂ s : List Char} (hp : pat <+: s₂)
    (hs : s₂ <:+ s) : pat <:+: s := by
  obtain ⟨w, hw⟩ := hp
  obtain ⟨u, hu⟩ := hs
  exact ⟨u, w, by rw [← hu, ← hw]; simp [List.append_assoc]⟩

theorem pre_of_append_le {pat a b : List Char} (h : pat <+: a ++ b)
    (hl : pat.length ≤ a.length) : pat <+: a := by
  have := List.prefix_iff_eq_take.mp h
  rw [List.take_append_eq_append_take, Nat.sub_eq_zero_of_le hl,
    List.take_zero, List.append_nil] at this
  exact this ▸ ⟨a.drop pat.length, List.take_append_drop _ _⟩

theorem eq_append_take_of_lt {pat a b : List Char} (h : pat <+: a ++ b)
    (hl : a.length < pat.length) : pat = a ++ b.take (pat.length - a.length) := by
  have := List.prefix_iff_eq_take.mp h
  rwa [List.take_append_eq_append_take, List.take_of_length_le (Nat.le_of_lt hl)] at this

/-- A match of `pat` starting inside `s` (at a non-empty suffix `s₂`,
continuing into `t`) forces an occurrence of `pat` inside
`s ++ t.take (pat.length - 1)`. -/
theorem occurrence_shift {pat s s₂ t : List Char} (hs : s₂ <:+ s) (hne : s₂ ≠ [])
    (hp : pat <+: s₂ ++ t) : pat <:+: s ++ t.take (pat.length - 1) := by
  by_cases hlen : pat.length ≤ s₂.length
  · have hps : pat <+: s₂ := pre_of_append_le hp hlen
    obtain ⟨u, v, huv⟩ := infix_of_pre_suffix hps hs
    exact ⟨u, v ++ t.take (pat.length - 1), by rw [← huv]; simp [List.append_assoc]⟩
  · have hlt : s₂.length < pat.length := Nat.lt_of_not_le hlen
    have hpe := eq_append_take_of_lt hp hlt
    have hm : pat.length - s₂.length ≤ pat.length - 1 :=
      Nat.sub_le_sub_left (List.length_pos.mpr hne) pat.length
    have htt : t.take (pat.length - s₂.length)
        = (t.take (pat.length - 1)).take (pat.length - s₂.length) := by
      rw [List.take_take, Nat.min_eq_left hm]
    obtain ⟨u, hu⟩ := hs
    set n := pat.length with hn
    have hpe2 : pat = s₂ ++ (t.take (n - 1)).take (n - s₂.length) := by
      rw [hpe, htt]
    refine ⟨u, (t.take (n - 1)).drop (n - s₂.length), ?_⟩
    rw [hpe2, ← hu]
    simp [List.append_assoc]

theorem afterFirst_append {pat s t : List Char}
    (hno : ¬ pat <:+: s ++ t.take (pat.length - 1))
    (ht : pat.isPrefixOf t = true) :
    afterFirst pat (s ++ t) = some (t.drop pat.length) := by
  induction s with
  | nil =>
    rcases t with _ | ⟨c, cs⟩
    · simp [afterFirst, ht]
    · simp [afterFirst, ht]
  | cons x xs ih =>
    have hfx : pat.isPrefixOf (x :: (xs ++ t)) = false := by
      cases hb : pat.isPrefixOf (x :: (xs ++ t)) with
      | false => rfl
      | true =>
        exact absurd
          (@occurrence_shift _ (x :: xs) (x :: xs) _ (List.suffix_refl _)
            (by simp) ((isPrefixOf_iff _ _).mp hb)) hno
    simp only [List.cons_append, afterFirst, List.append_eq, hfx, Bool.false_eq_true, if_false]
    exact ih (fun h => hno (infix_of_cons h))

theorem afterFirst_eq_none {pat s : List Char} (hp : pat ≠ [])
    (hno : ¬ pat <:+: s) : afterFirst pat s = none := by
  induction s with
  | nil =>
    rcases pat with _ | ⟨a, as⟩
    · exact absurd rfl hp
    · simp [afterFirst, List.isPrefixOf]
  | cons c cs ih =>
    have hfx : pat.isPrefixOf (c :: cs) = false := by
      cases hb : pat.isPrefixOf (c :: cs) with
      | false => rfl
      | true => exact absurd (infix_of_prefix_of ((isPrefixOf_iff _ _).mp hb)) hno
    simp only [afterFirst, List.append_eq, hfx, Bool.false_eq_true, if_false]
    exact ih (fun h => hno (infix_of_cons h))

theorem takeUntilStop_append {stop : List Char → Bool} {u v : List Char}
    (hu : ∀ u₂, u₂ <:+ u → u₂ ≠ [] → stop (u₂ ++ v) = false)
    (hv : stop v = true) :
    takeUntilStop stop (u ++ v) = u := by
  induction u with
  | nil =>
    rcases v with _ | ⟨c, cs⟩
    · rfl
    · simp [takeUntilStop, hv]
  | cons x xs ih =>
    have hfx : stop (x :: (xs ++ v)) = false :=
      hu (x :: xs) (List.suffix_refl _) (by simp)
    simp only [List.cons_append, takeUntilStop, List.append_eq, hfx, Bool.false_eq_true, if_false]
    rw [ih (fun u₂ h hne => hu u₂ (suffix_of_cons h) hne)]

theorem takeUntilStop_run {stop : List Char → Bool} {u : List Char}
    (hu : ∀ u₂, u₂ <:+ u → u₂ ≠ [] → stop u₂ = false) :
    takeUntilStop stop u = u := by
  induction u with
  | nil => rfl
  | cons x xs ih =>
    have hfx : stop (x :: xs) = false := hu (x :: xs) (List.suffix_refl _) (by simp)
    simp only [takeUntilStop, hfx, Bool.false_eq_true, if_false]
    rw [ih (fun u₂ h hne => hu u₂ (suffix_of_cons h) hne)]

theorem suffix_of_append_singleton {s₂ l : List Char} {x : Char}
    (h : s₂ <:+ l ++ [x]) (hne : s₂ ≠ []) :
    ∃ s', s' <:+ l ∧ s₂ = s' ++ [x] := by
  obtain ⟨w, hw⟩ := h
  rcases hr : s₂.reverse with _ | ⟨y, ys⟩
  · exact absurd (by simpa using congrArg List.reverse hr) hne
  · have hrev : s₂.reverse ++ w.reverse = x :: l.reverse := by
      rw [← List.reverse_append, hw, List.reverse_append]
      rfl
    rw [hr, List.cons_append] at hrev
    injection hrev with hy ht
    refine ⟨ys.reverse, ?_, ?_⟩
    · exact ⟨w.reverse.reverse, by
        rw [← List.reverse_append, ht, List.reverse_reverse]⟩
    · calc s₂ = s₂.reverse.reverse := (List.reverse_reverse _).symm
        _ = (y :: ys).reverse := by rw [hr]
        _ = ys.reverse ++ [y] := by simp
        _ = ys.reverse ++ [x] := by rw [hy]

theorem noStraddleSpace {pat s s₂ v : List Char} (hsp : ' ' ∉ pat)
    (hni : ¬ pat <:+: s) (hs : s₂ <:+ s) (_hne : s₂ ≠ []) :
    pat.isPrefixOf (s₂ ++ ' ' :: v) = false := by
  cases hb : pat.isPrefixOf (s₂ ++ ' ' :: v) with
  | false => rfl
  | true =>
    exfalso
    have hp := (isPrefixOf_iff _ _).mp hb
    by_cases hlen : pat.length ≤ s₂.length
    · exact hni (infix_of_pre_suffix (pre_of_append_le hp hlen) hs)
    · have hlt := Nat.lt_of_not_le hlen
      have hpe := eq_append_take_of_lt hp hlt
      apply hsp
      rw [hpe]
      rcases hk : pat.length - s₂.length with _ | k
      · omega
      · rw [List.take_succ_cons]
        exact List.mem_append_right _ (List.mem_cons_self _ _)

theorem noStraddle2 {x y z : Char} {s s₂ v : List Char} (hz : z ≠ y)
    (hni : ¬ [x, y] <:+: s) (hs : s₂ <:+ s) (hne : s₂ ≠ []) :
    [x, y].isPrefixOf (s₂ ++ z :: v) = false := by
  cases hb : [x, y].isPrefixOf (s₂ ++ z :: v) with
  | false => rfl
  | true =>
    exfalso
    have hp := (isPrefixOf_iff _ _).mp hb
    rcases s₂ with _ | ⟨a, as⟩
    · exact hne rfl
    rcases as with _ | ⟨a', as'⟩
    · rw [show ([a] ++ z :: v) = a :: z :: v from rfl, List.cons_prefix_cons] at hp
      rw [List.cons_prefix_cons] at hp
      exact hz hp.2.1.symm
    · have hps : [x, y] <+: a :: a' :: as' := by
        rw [show ((a :: a' :: as') ++ z :: v) = a :: a' :: (as' ++ z :: v) from rfl,
          List.cons_prefix_cons, List.cons_prefix_cons] at hp
        exact ⟨as', by rw [hp.1, hp.2.1]; rfl⟩
      exact hni (infix_of_pre_suffix hps hs)

/-! Lemmas about the split scan `scanQ`. -/

theorem tryMarker_rest_length {t cap rest : List Char}
    (h : tryMarker t = some (cap, rest)) : rest.length < t.length := by
  unfold tryMarker at h
  by_cases hpre : marker.isPrefixOf t = true
  · rw [if_pos hpre] at h
    by_cases hds : ((t.drop 12).dropWhile isWS).takeWhile isDigitC = []
    · rw [if_pos hds] at h
      exact absurd h (by simp)
    · rw [if_neg hds] at h
      simp only [Option.some.injEq, Prod.mk.injEq] at h
      have hrest : rest = ((t.drop 12).dropWhile isWS).dropWhile isDigitC := h.2.symm
      have hlen12 : 12 ≤ t.length := by
        have h12 := ((isPrefixOf_iff _ _).mp hpre).length_le
        simpa using h12
      have h2 : ((t.drop 12).dropWhile isWS).length ≤ t.length - 12 := by
        have hd : (t.drop 12).length = t.length - 12 := List.length_drop _ _
        have := (List.dropWhile_sublist (l := t.drop 12) isWS).length_le
        omega
      have h3 : (((t.drop 12).dropWhile isWS).dropWhile isDigitC).length
          < ((t.drop 12).dropWhile isWS).length := by
        rcases ht2c : (t.drop 12).dropWhile isWS with _ | ⟨c, cs⟩
        · rw [ht2c] at hds
          simp at hds
        · rw [ht2c] at hds
          have hc : isDigitC c = true := by
            cases hcc : isDigitC c with
            | true => rfl
            | false =>
              rw [List.takeWhile_cons, hcc] at hds
              simp at hds
          rw [List.dropWhile_cons, hc]
          simp only [if_true]
          have := (List.dropWhile_sublist (l := cs) isDigitC).length_le
          simp only [List.length_cons]
          omega
      rw [hrest]
      omega
  · rw [if_neg hpre] at h
    exact absurd h (by simp)

theorem scanQAux_congr : ∀ (f g : Nat) (t : List Char), t.length ≤ f → t.length ≤ g →
    scanQAux f t = scanQAux g t
  | 0, g, t, hf, _ => by
    have ht : t = [] := List.length_eq_zero.mp (Nat.le_zero.mp hf)
    subst ht
    cases g <;> rfl
  | _ + 1, 0, t, _, hg => by
    have ht : t = [] := List.length_eq_zero.mp (Nat.le_zero.mp hg)
    subst ht
    rfl
  | _ + 1, _ + 1, [], _, _ => rfl
  | f + 1, g + 1, c :: cs, hf, hg => by
    rcases hm : tryMarker (c :: cs) with _ | ⟨cap, rest⟩
    · have hfc : cs.length ≤ f := by simp at hf; omega
      have hgc : cs.length ≤ g := by simp at hg; omega
      simp only [scanQAux, hm]
      rw [scanQAux_congr f g cs hfc hgc]
    · have hr := tryMarker_rest_length hm
      have hfr : rest.length ≤ f := by simp at hf hr; omega
      have hgr : rest.length ≤ g := by simp at hg hr; omega
      simp only [scanQAux, hm]
      rw [scanQAux_congr f g rest hfr hgr]

theorem scanQ_cons_some {c : Char} {cs cap rest : List Char}
    (h : tryMarker (c :: cs) = some (cap, rest)) :
    scanQ (c :: cs) = ([], (cap, (scanQ rest).1) :: (scanQ rest).2) := by
  have hr := tryMarker_rest_length h
  show scanQAux (c :: cs).length (c :: cs) = _
  simp only [List.length_cons, scanQAux, h]
  rw [scanQAux_congr cs.length rest.length rest (by simp at hr; omega) (Nat.le_refl _)]
  rfl

theorem scanQ_cons_none {c : Char} {cs : List Char}
    (h : tryMarker (c :: cs) = none) :
    scanQ (c :: cs) = (c :: (scanQ cs).1, (scanQ cs).2) := by
  show scanQAux (c :: cs).length (c :: cs) = _
  simp only [List.length_cons, scanQAux, h]
  rfl

theorem ws_digit_false {c : Char} (hd : isDigitC c = true) : isWS c = false := by
  cases hw : isWS c with
  | false => rfl
  | true =>
    exfalso
    simp only [isWS, Bool.or_eq_true, beq_iff_eq] at hw
    simp only [isDigitC, Bool.and_eq_true, decide_eq_true_eq] at hd
    rcases hw with ((((h | h) | h) | h) | h) | h <;> (subst h; exact absurd hd (by decide))

theorem dropWhile_append_all {p : Char → Bool} {ws y : List Char}
    (h : ∀ c ∈ ws, p c = true) : (ws ++ y).dropWhile p = y.dropWhile p := by
  induction ws with
  | nil => rfl
  | cons x xs ih =>
    rw [List.cons_append, List.dropWhile_cons, if_pos (h x (List.mem_cons_self _ _))]
    exact ih (fun c hc => h c (List.mem_cons_of_mem _ hc))

theorem takeWhile_append_stop {p : Char → Bool} {ds y : List Char}
    (hds : ∀ c ∈ ds, p c = true) (hy : ∀ c, y.head? = some c → p c = false) :
    (ds ++ y).takeWhile p = ds := by
  induction ds with
  | nil =>
    rcases y with _ | ⟨c, cs⟩
    · rfl
    · rw [List.nil_append, List.takeWhile_cons, hy c rfl]
      rfl
  | cons d ds' ih =>
    rw [List.cons_append, List.takeWhile_cons, hds d (List.mem_cons_self _ _)]
    simp only [if_true]
    rw [ih (fun c hc => hds c (List.mem_cons_of_mem _ hc))]

theorem dropWhile_append_stop {p : Char → Bool} {ds y : List Char}
    (hds : ∀ c ∈ ds, p c = true) (hy : ∀ c, y.head? = some c → p c = false) :
    (ds ++ y).dropWhile p = y := by
  induction ds with
  | nil =>
    rcases y with _ | ⟨c, cs⟩
    · rfl
    · rw [List.nil_append, List.dropWhile_cons, hy c rfl]
      rfl
  | cons d ds' ih =>
    rw [List.cons_append, List.dropWhile_cons, hds d (List.mem_cons_self _ _)]
    simp only [if_true]
    exact ih (fun c hc => hds c (List.mem_cons_of_mem _ hc))

/-- The split pattern matches at the head of a well-formed segment,
capturing exactly the digit label. -/
theorem tryMarker_seg {ws ds blk rest : List Char}
    (hws : ∀ c ∈ ws, isWS c = true) (hdne : ds ≠ [])
    (hds : ∀ c ∈ ds, isDigitC c = true)
    (hhead : ∀ c, (blk ++ rest).head? = some c → isDigitC c = false) :
    tryMarker (marker ++ (ws ++ (ds ++ (blk ++ rest)))) = some (ds, blk ++ rest) := by
  have hdsws : ∀ c ∈ ds, isWS c = false := fun c hc => ws_digit_false (hds c hc)
  have hdw : (ds ++ (blk ++ rest)).dropWhile isWS = ds ++ (blk ++ rest) := by
    rcases hdse : ds with _ | ⟨d, ds'⟩
    · exact absurd hdse hdne
    · rw [List.cons_append, List.dropWhile_cons,
        hdsws d (by rw [hdse]; exact List.mem_cons_self _ _)]
      rfl
  have hdw0 : ((marker ++ (ws ++ (ds ++ (blk ++ rest)))).drop 12).dropWhile isWS
      = ds ++ (blk ++ rest) := by
    rw [List.drop_left' (show marker.length = 12 from rfl),
      dropWhile_append_all hws, hdw]
  unfold tryMarker
  rw [if_pos ((isPrefixOf_iff _ _).mpr ⟨ws ++ (ds ++ (blk ++ rest)), rfl⟩)]
  rw [hdw0, takeWhile_append_stop hds hhead, dropWhile_append_stop hds hhead,
    if_neg hdne]

theorem scanQ_marker_append {X cap rest : List Char}
    (h : tryMarker (marker ++ X) = some (cap, rest)) :
    scanQ (marker ++ X) = ([], (cap, (scanQ rest).1) :: (scanQ rest).2) := by
  have hm : marker ++ X = 'Q' :: ("UESTION NO:".data ++ X) := rfl
  rw [hm] at h ⊢
  exact scanQ_cons_some h

/-- Text containing no marker occurrence (not even straddling into the
following text, whence the `take 11`) is skipped by the scan and becomes
part of the current split piece. -/
theorem scanQ_skip {s t : List Char} (hno : ¬ marker <:+: s ++ t.take 11) :
    scanQ (s ++ t) = (s ++ (scanQ t).1, (scanQ t).2) := by
  induction s with
  | nil => simp
  | cons x xs ih =>
    have hfx : tryMarker (x :: (xs ++ t)) = none := by
      unfold tryMarker
      have hpf : marker.isPrefixOf (x :: (xs ++ t)) = false := by
        cases hb : marker.isPrefixOf (x :: (xs ++ t)) with
        | false => rfl
        | true =>
          have hocc := @occurrence_shift _ (x :: xs) (x :: xs) _
            (List.suffix_refl _) (by simp) ((isPrefixOf_iff _ _).mp hb)
          rw [show marker.length - 1 = 11 from rfl] at hocc
          exact absurd hocc hno
      rw [hpf]
      rfl
    rw [show (x :: xs) ++ t = x :: (xs ++ t) from rfl, scanQ_cons_none hfx]
    rw [ih (fun hcon => hno (infix_of_cons hcon))]
    rfl

theorem segsText_head_not_digit :
    ∀ (L : List (List Char × List Char × List Char)) (c : Char),
      (segsText L).head? = some c → isDigitC c = false := by
  intro L c hc
  rcases L with _ | ⟨⟨ws, ds, blk⟩, L'⟩
  · exact absurd hc (by simp [segsText])
  · have : segsText ((ws, ds, blk) :: L') = 'Q' :: ("UESTION NO:".data ++ ws
        ++ ds ++ blk ++ segsText L') := by
      simp [segsText, qSeg, List.append_assoc]
      rfl
    rw [this] at hc
    simp only [List.head?_cons, Option.some.injEq] at hc
    rw [← hc]
    rfl

/-- The split scan over a well-formed segment list: every match is one
segment start, every capture is the segment's digit label, and every
following split piece is the segment's block. -/
theorem scanQ_segsText :
    ∀ (L : List (List Char × List Char × List Char)), wellFormedSegs L →
      scanQ (segsText L) = ([], L.map (fun x => (x.2.1, x.2.2)))
  | [], _ => rfl
  | (ws, ds, blk) :: L, h => by
    obtain ⟨hws, hdne, hds, hblkd, hnomk, hL⟩ := h
    have hhead : ∀ c, (blk ++ segsText L).head? = some c → isDigitC c = false := by
      intro c hc
      rcases blk with _ | ⟨b, bs⟩
      · exact segsText_head_not_digit L c (by simpa using hc)
      · exact hblkd c (by simpa using hc)
    have htm := @tryMarker_seg _ _ blk (segsText L) hws hdne hds hhead
    have hform : segsText ((ws, ds, blk) :: L)
        = marker ++ (ws ++ (ds ++ (blk ++ segsText L))) := by
      simp [segsText, qSeg, List.append_assoc]
    rw [hform, scanQ_marker_append htm,
      scanQ_skip hnomk, scanQ_segsText L hL]
    simp

/-- Per-element digit facts extracted from well-formedness. -/
theorem wf_digit_each :
    ∀ (L : List (List Char × List Char × List Char)), wellFormedSegs L →
      ∀ x ∈ L, x.2.1 ≠ [] ∧ (∀ c ∈ x.2.1, isDigitC c = true)
  | [], _, x, hx => absurd hx (by simp)
  | (ws, ds, blk) :: L, h, x, hx => by
    obtain ⟨_, hdne, hds, _, _, hL⟩ := h
    rcases List.mem_cons.mp hx with h1 | h1
    · subst h1
      exact ⟨hdne, hds⟩
    · exact wf_digit_each L hL x h1

theorem pyStrip_digits {ds : List Char} (hds : ∀ c ∈ ds, isDigitC c = true) :
    pyStrip ds = ds := by
  apply pyStrip_eq_self
  · intro c hc
    rcases ds with _ | ⟨d, ds'⟩
    · exact absurd hc (by simp)
    · simp only [List.head?_cons, Option.some.injEq] at hc
      exact ws_digit_false (hds c (by rw [hc]; exact List.mem_cons_self _ _))
  · intro c hc
    exact ws_digit_false (hds c (List.mem_of_getLast?_eq_some hc))

theorem beforeFirst_eq_none {pat s : List Char} (hp : pat ≠ [])
    (hno : ¬ pat <:+: s) : beforeFirst pat s = none := by
  induction s with
  | nil =>
    rcases pat with _ | ⟨a, as⟩
    · exact absurd rfl hp
    · simp [beforeFirst, List.isPrefixOf]
  | cons c cs ih =>
    have hfx : pat.isPrefixOf (c :: cs) = false := by
      cases hb : pat.isPrefixOf (c :: cs) with
      | false => rfl
      | true => exact absurd (infix_of_prefix_of ((isPrefixOf_iff _ _).mp hb)) hno
    simp only [beforeFirst, hfx, Bool.false_eq_true, if_false]
    rw [ih (fun h => hno (infix_of_cons h))]
    rfl

theorem infix_of_append_right {pat x y : List Char} (h : pat <:+: x) :
    pat <:+: x ++ y := by
  obtain ⟨u, v, huv⟩ := h
  exact ⟨u, v ++ y, by rw [← huv]; simp [List.append_assoc]⟩

theorem containsSub_iff {pat s : List Char} :
    containsSub pat s = true ↔ pat <:+: s := by
  induction s with
  | nil =>
    constructor
    · intro h
      have hp : pat = [] := by
        simpa [containsSub, List.isEmpty_iff] using h
      rw [hp]
    · rintro ⟨u, v, huv⟩
      have hu := List.append_eq_nil.mp huv
      have hp := (List.append_eq_nil.mp hu.1).2
      simp [containsSub, hp]
  | cons c cs ih =>
    simp only [containsSub, Bool.or_eq_true, isPrefixOf_iff, ih]
    exact (List.infix_cons_iff).symm

/-- No occurrence of a two-character pattern appears after appending one
character that cannot be the pattern's second character. -/
theorem not_infix_snoc {x y z : Char} {s : List Char} (hz : z ≠ y)
    (h : ¬ [x, y] <:+: s) : ¬ [x, y] <:+: s ++ [z] := by
  intro ⟨u, v, huv⟩
  rcases hv : v.reverse with _ | ⟨w, ws⟩
  · have hv0 : v = [] := by
      have := congrArg List.reverse hv
      simpa using this
    subst hv0
    rw [List.append_nil] at huv
    have h1 : (u ++ [x, y]).getLast? = some y := by
      rw [show u ++ [x, y] = (u ++ [x]) ++ [y] by simp [List.append_assoc]]
      exact List.getLast?_concat _
    rw [huv, List.getLast?_concat] at h1
    exact hz (Option.some.inj h1)
  · have hv2 : v = ws.reverse ++ [w] := by
      have := congrArg List.reverse hv
      simpa using this
    subst hv2
    rw [show u ++ [x, y] ++ (ws.reverse ++ [w])
        = (u ++ [x, y] ++ ws.reverse) ++ [w] by simp [List.append_assoc]] at huv
    have := List.append_inj' huv rfl
    exact h ⟨u, ws.reverse, this.1.symm ▸ rfl⟩

/-- Extraction of one option whose marker `"L."` first occurs right after
`P`, whose text `opt` is surrounded by single spaces, and whose boundary
(the next letter's marker or `"ANSWER:"`) starts `tail`. -/
theorem extract_option_at {P opt tail : List Char} {L N : Char}
    (hnext : Char.ofNat (L.toNat + 1) = N)
    (hLdot : L ≠ '.') (hNsp : N ≠ ' ')
    (hP : ¬ [L, '.'] <:+: P) (hone : opt ≠ [])
    (hH : ∀ x, opt.head? = some x → isWS x = false)
    (hLst : ∀ x, opt.getLast? = some x → isWS x = false)
    (hB : ¬ [N, '.'] <:+: opt) (hAns : ¬ answerMarker <:+: opt)
    (hstop : optStop N tail = true) :
    extract_option (P ++ (L :: '.' :: ' ' :: (opt ++ (' ' :: tail)))) L = opt := by
  have hpre : [L, '.'].isPrefixOf (L :: '.' :: ' ' :: (opt ++ (' ' :: tail))) = true := by
    simp [List.isPrefixOf]
  have h1 := @afterFirst_append [L, '.'] P (L :: '.' :: ' ' :: (opt ++ (' ' :: tail)))
    (not_infix_snoc hLdot hP) hpre
  unfold extract_option
  rw [h1]
  show pyStrip (takeUntilStop (optStop (Char.ofNat (L.toNat + 1)))
      ((' ' :: (opt ++ (' ' :: tail))).dropWhile isWS)) = opt
  rw [hnext]
  have h2 : (' ' :: (opt ++ (' ' :: tail))).dropWhile isWS = opt ++ (' ' :: tail) := by
    rw [List.dropWhile_cons]
    simp only [show isWS ' ' = true from rfl, if_true]
    rcases hoe : opt with _ | ⟨o, os⟩
    · exact absurd hoe hone
    · rw [List.cons_append, List.dropWhile_cons]
      simp only [hH o (by rw [hoe]; rfl), Bool.false_eq_true, if_false]
  rw [h2, show opt ++ (' ' :: tail) = (opt ++ [' ']) ++ tail from by
    simp [List.append_assoc]]
  have hu : ∀ u₂, u₂ <:+ opt ++ [' '] → u₂ ≠ [] → optStop N (u₂ ++ tail) = false := by
    intro u₂ hsuf hneq
    rcases suffix_of_append_singleton hsuf hneq with ⟨s', hs', hu2⟩
    subst hu2
    rw [show (s' ++ [' ']) ++ tail = s' ++ (' ' :: tail) from by
      simp [List.append_assoc]]
    by_cases hs0 : s' = []
    · subst hs0
      unfold optStop
      rw [show ([N, '.'].isPrefixOf (([] : List Char) ++ ' ' :: tail)) = false from by
        simp [List.isPrefixOf, beq_eq_false_iff_ne.mpr hNsp]]
      rw [show (answerMarker.isPrefixOf (([] : List Char) ++ ' ' :: tail)) = false from by
        rw [show answerMarker = 'A' :: "NSWER:".data from rfl]
        simp [List.isPrefixOf, show ('A' == ' ') = false from by decide]]
      rfl
    · unfold optStop
      rw [noStraddle2 (show ' ' ≠ '.' from by decide) hB hs' hs0,
        noStraddleSpace (show ' ' ∉ answerMarker from by decide) hAns hs' hs0]
      rfl
  rw [takeUntilStop_append hu hstop, pyStrip_append_space hone hH hLst]

/-! The claims. -/

/-- C1 (code bug): on the spec's example explanation, `extract_reference`
does not return the citation: it raises `NameError` (it reads the
undefined variable `text`), modelled as `Except.error ()`. -/
theorem extract_reference_raises_on_citation :
    extract_reference
      "The tested concept is defined there. Reference: CompTIA Security+ Study Guide.".data
      = Except.error () := rfl

/-- C2: `extract_reference` raises on every non-empty explanation, so
`parse_question_content` returns `none` for every block whose extracted
explanation is non-empty, and consequently every record emitted by
`parse_questions` has empty `explanation` and empty `reference`. -/
theorem records_have_empty_explanation_and_reference :
    (∀ e : List Char, e ≠ [] → extract_reference e = .error ()) ∧
    (∀ n c : List Char, explanationOf c ≠ [] → parse_question_content n c = none) ∧
    (∀ t : List Char, ∀ q ∈ parse_questions t,
      q.explanation = [] ∧ q.reference = []) := by
  have h1 : ∀ e : List Char, e ≠ [] → extract_reference e = .error () := by
    intro e he
    simp [extract_reference, he]
  have h2 : ∀ n c : List Char, explanationOf c ≠ [] →
      parse_question_content n c = none := by
    intro n c hc
    simp only [parse_question_content, h1 _ hc]
  refine ⟨h1, h2, ?_⟩
  intro t q hq
  obtain ⟨⟨n, c⟩, _, hpc⟩ := List.mem_filterMap.mp hq
  by_cases he : explanationOf c = []
  · simp only [parse_question_content, extract_reference, if_pos he,
      Option.some.injEq] at hpc
    rw [← hpc]
    exact ⟨rfl, rfl⟩
  · rw [h2 n c he] at hpc
    exact absurd hpc (by simp)

theorem records_have_empty_explanation_and_reference_witness :
    extract_reference "why".data = Except.error () ∧
    parse_question_content "2".data " Explanation: e ".data = none ∧
    (Question.mk "1".data "image".data "ok".data "x".data [] [] [] "A".data
        [] []).explanation = [] :=
  ⟨records_have_empty_explanation_and_reference.1 "why".data (by decide),
   records_have_empty_explanation_and_reference.2.1 "2".data
     " Explanation: e ".data (by decide),
   (records_have_empty_explanation_and_reference.2.2
     "QUESTION NO: 1 ok A. x ANSWER: A".data
     (Question.mk "1".data "image".data "ok".data "x".data [] [] [] "A".data [] [])
     (by decide)).1⟩

/-- C3 counterexample: a block containing no `"A."` yields the EMPTY
statement, not the entire block as the claim asserts. -/
theorem statement_no_marker_counterexample :
    ¬ (['A', '.'] <:+: "Which one is correct?".data) ∧
    extractStatement "Which one is correct?".data = [] ∧
    "Which one is correct?".data ≠ ([] : List Char) :=
  ⟨by decide, by decide, by decide⟩

/-- C3 amended: when the block contains no occurrence of `"A."`, the
extracted statement is the empty string (the regex `^(.*?)(?=A\.)` fails
to match and the code falls back to `""`). -/
theorem statement_empty_when_no_marker {content : List Char}
    (h : ¬ ['A', '.'] <:+: content) : extractStatement content = [] := by
  unfold extractStatement
  rw [beforeFirst_eq_none (by simp) h]

theorem statement_empty_when_no_marker_witness :
    extractStatement "No options here".data = [] :=
  statement_empty_when_no_marker (by decide)

/-- C4 counterexample: an input with exactly one marker occurrence yields
one (questionNo, contentBlock) pair, not the empty sequence the claim
asserts for "fewer than 2" occurrences. -/
theorem segmenter_single_marker_counterexample :
    countMarker "QUESTION NO: 1 x".data = 1 ∧
    segPairs "QUESTION NO: 1 x".data = [("1".data, " x".data)] ∧
    segPairs "QUESTION NO: 1 x".data ≠ [] :=
  ⟨by decide, by decide, by decide⟩

/-- C4 amended: only an input with NO marker occurrence yields the empty
sequence of pairs (one occurrence already yields one pair). -/
theorem segmenter_no_marker_yields_empty {t : List Char}
    (h : countMarker t = 0) : segPairs t = [] := by
  induction t with
  | nil => rfl
  | cons c cs ih =>
    have hm : tryMarker (c :: cs) = none := by
      rcases hmm : tryMarker (c :: cs) with _ | p
      · rfl
      · rw [countMarker, hmm] at h
        simp at h
    have hcs : countMarker cs = 0 := by
      rw [countMarker, hm] at h
      simpa using h
    unfold segPairs
    rw [scanQ_cons_none hm]
    exact ih hcs

theorem segmenter_no_marker_yields_empty_witness :
    segPairs "no questions at all".data = [] :=
  segmenter_no_marker_yields_empty (by decide)

/-- C7: a missing option marker yields the empty string rather than an
error, and a block (with empty explanation, so that parsing succeeds)
still yields a record carrying all four option fields A-D, each exactly
the sanitized extraction. -/
theorem options_always_present_degraded_policy :
    (∀ (text : List Char) (letter : Char), ¬ [letter, '.'] <:+: text →
      extract_option text letter = []) ∧
    (∀ n c : List Char, explanationOf c = [] →
      ∃ q, parse_question_content n c = some q ∧
        q.option_A = sanitize_text (extract_option c 'A') ∧
        q.option_B = sanitize_text (extract_option c 'B') ∧
        q.option_C = sanitize_text (extract_option c 'C') ∧
        q.option_D = sanitize_text (extract_option c 'D')) := by
  constructor
  · intro text letter h
    unfold extract_option
    rw [afterFirst_eq_none (by simp) h]
  · intro n c he
    have hok : extract_reference (explanationOf c) = .ok ([], none) := by
      simp [extract_reference, he]
    simp only [parse_question_content, hok]
    exact ⟨_, rfl, rfl, rfl, rfl, rfl⟩

theorem options_always_present_degraded_policy_witness :
    extract_option " ok A. a B. b C. c ANSWER: A".data 'D' = [] ∧
    (parse_question_content "7".data " ok A. a B. b C. c ANSWER: A".data).isSome
      = true := by
  refine ⟨options_always_present_degraded_policy.1 _ 'D' (by decide), ?_⟩
  obtain ⟨q, hq, -, -, -, -⟩ := options_always_present_degraded_policy.2
    "7".data " ok A. a B. b C. c ANSWER: A".data (by decide)
  rw [hq]
  rfl

/-- C9: `sanitize_text` is idempotent and its output contains no character
with code point below 32 other than newline and tab. -/
theorem sanitize_idempotent_and_control_free (s : List Char) :
    sanitize_text (sanitize_text s) = sanitize_text s ∧
    ∀ c ∈ sanitize_text s, c = '\n' ∨ c = '\t' ∨ 32 ≤ c.toNat := by
  refine ⟨sanitize_idem s, ?_⟩
  intro c hc
  have hk := mem_sanitize hc
  simp only [keepChar, Bool.or_eq_true, beq_iff_eq, decide_eq_true_eq] at hk
  tauto

theorem sanitize_idempotent_and_control_free_witness :
    sanitize_text (sanitize_text " a\r\nb\x00c ".data)
      = sanitize_text " a\r\nb\x00c ".data ∧
    ('a' = '\n' ∨ 'a' = '\t' ∨ 32 ≤ 'a'.toNat) :=
  ⟨(sanitize_idempotent_and_control_free " a\r\nb\x00c ".data).1,
   (sanitize_idempotent_and_control_free " a\r\nb\x00c ".data).2 'a' (by decide)⟩

/-- C10: a block whose parse fails is skipped in isolation: the records of
every other block are still produced, both at the level of the per-pair
loop and end to end through `parse_questions`. -/
theorem per_record_failure_isolation :
    (∀ (l r : List (List Char × List Char)) (n c : List Char),
      parse_question_content n c = none →
      processPairs (l ++ (n, c) :: r) = processPairs (l ++ r)) ∧
    (∀ (t : List Char) (l r : List (List Char × List Char)) (n c : List Char),
      segPairs t = l ++ (n, c) :: r → parse_question_content n c = none →
      parse_questions t = processPairs l ++ processPairs r) := by
  have h1 : ∀ (l r : List (List Char × List Char)) (n c : List Char),
      parse_question_content n c = none →
      processPairs (l ++ (n, c) :: r) = processPairs (l ++ r) := by
    intro l r n c h
    unfold processPairs
    simp only [List.filterMap_append]
    congr 1
    simp only [List.filterMap_cons, h]
  refine ⟨h1, ?_⟩
  intro t l r n c hseg h
  unfold parse_questions
  rw [hseg, h1 l r n c h]
  unfold processPairs
  rw [List.filterMap_append]

/-- C6: in a block of the spec's shape
`... A. foo B. bar C. baz D. qux ANSWER: X` (each option non-empty,
whitespace-trimmed, free of the next boundary marker, and with the first
`"A."`/`"D."` occurrence being the option marker), extracting A yields
`foo` and extracting D yields `qux`: each capture runs from the marker to
the first following boundary, and D's boundary is `"ANSWER:"`. -/
theorem option_extractor_boundaries
    (pre a b c d ans : List Char)
    (hpreA : ¬ ['A', '.'] <:+: pre)
    (hane : a ≠ [])
    (haH : ∀ x, a.head? = some x → isWS x = false)
    (haL : ∀ x, a.getLast? = some x → isWS x = false)
    (haB : ¬ ['B', '.'] <:+: a)
    (haAns : ¬ answerMarker <:+: a)
    (hdne : d ≠ [])
    (hdH : ∀ x, d.head? = some x → isWS x = false)
    (hdL : ∀ x, d.getLast? = some x → isWS x = false)
    (hdE : ¬ ['E', '.'] <:+: d)
    (hdAns : ¬ answerMarker <:+: d)
    (hPD : ¬ ['D', '.'] <:+:
      pre ++ "A. ".data ++ a ++ " B. ".data ++ b ++ " C. ".data ++ c ++ [' ']) :
    extract_option (pre ++ "A. ".data ++ a ++ " B. ".data ++ b ++ " C. ".data ++ c
        ++ " D. ".data ++ d ++ " ANSWER: ".data ++ ans) 'A' = a ∧
    extract_option (pre ++ "A. ".data ++ a ++ " B. ".data ++ b ++ " C. ".data ++ c
        ++ " D. ".data ++ d ++ " ANSWER: ".data ++ ans) 'D' = d := by
  have hsep1 : "A. ".data = ['A', '.', ' '] := rfl
  have hsep2 : " B. ".data = [' ', 'B', '.', ' '] := rfl
  have hsep3 : " C. ".data = [' ', 'C', '.', ' '] := rfl
  have hsep4 : " D. ".data = [' ', 'D', '.', ' '] := rfl
  have hsep5 : " ANSWER: ".data = [' ', 'A', 'N', 'S', 'W', 'E', 'R', ':', ' '] := rfl
  constructor
  · have hexpA : pre ++ "A. ".data ++ a ++ " B. ".data ++ b ++ " C. ".data ++ c
        ++ " D. ".data ++ d ++ " ANSWER: ".data ++ ans
        = pre ++ ('A' :: '.' :: ' ' :: (a ++ (' ' :: ('B' :: '.' :: ' ' :: (b
          ++ (' ' :: 'C' :: '.' :: ' ' :: (c ++ (' ' :: 'D' :: '.' :: ' ' :: (d
          ++ (' ' :: 'A' :: 'N' :: 'S' :: 'W' :: 'E' :: 'R' :: ':' :: ' '
            :: ans)))))))))) := by
      simp only [hsep1, hsep2, hsep3, hsep4, hsep5, List.append_assoc,
        List.cons_append, List.nil_append]
    rw [hexpA]
    exact extract_option_at (by decide) (by decide) (by decide) hpreA hane haH haL
      haB haAns (by simp [optStop, List.isPrefixOf])
  · have hexpD : pre ++ "A. ".data ++ a ++ " B. ".data ++ b ++ " C. ".data ++ c
        ++ " D. ".data ++ d ++ " ANSWER: ".data ++ ans
        = (pre ++ "A. ".data ++ a ++ " B. ".data ++ b ++ " C. ".data ++ c ++ [' '])
          ++ ('D' :: '.' :: ' ' :: (d
            ++ (' ' :: ('A' :: 'N' :: 'S' :: 'W' :: 'E' :: 'R' :: ':' :: ' '
              :: ans)))) := by
      simp only [hsep1, hsep2, hsep3, hsep4, hsep5, List.append_assoc,
        List.cons_append, List.nil_append]
    rw [hexpD]
    exact extract_option_at (by decide) (by decide) (by decide) hPD hdne hdH hdL
      hdE hdAns (by simp [optStop, show answerMarker
        = ['A', 'N', 'S', 'W', 'E', 'R', ':'] from rfl, List.isPrefixOf])

set_option maxRecDepth 16384 in
theorem option_extractor_boundaries_witness :
    extract_option "Choose one: A. foo B. bar C. baz D. qux ANSWER: B".data 'A'
      = "foo".data ∧
    extract_option "Choose one: A. foo B. bar C. baz D. qux ANSWER: B".data 'D'
      = "qux".data :=
  option_extractor_boundaries "Choose one: ".data "foo".data "bar".data
    "baz".data "qux".data "B".data
    (by decide) (by decide) (by decide) (by decide) (by decide) (by decide)
    (by decide) (by decide) (by decide) (by decide) (by decide) (by decide)

/-- C8: the classifier returns IMAGE exactly when an image keyword occurs
case-insensitively in the combined statement+options text or the trimmed
statement is shorter than 20 characters, and TEXT otherwise; including
the spec's three examples (`"See the figure below."` ⇒ IMAGE for any
options, a 60-character keyword-free statement ⇒ TEXT, a 10-character
statement ⇒ IMAGE regardless of the options). -/
theorem classifier_keyword_length_heuristic :
    (∀ stmt opts : List Char, KeywordHit stmt opts →
      detect_question_type stmt opts = "image".data) ∧
    (∀ stmt opts : List Char, ¬ KeywordHit stmt opts →
      (pyStrip stmt).length < 20 →
      detect_question_type stmt opts = "image".data) ∧
    (∀ stmt opts : List Char, ¬ KeywordHit stmt opts →
      20 ≤ (pyStrip stmt).length →
      detect_question_type stmt opts = "text".data) ∧
    (∀ opts : List Char,
      detect_question_type "See the figure below.".data opts = "image".data) ∧
    detect_question_type
      "Select the most appropriate answer for this network question".data
      "alpha beta gamma delta".data = "text".data ∧
    (∀ opts : List Char,
      detect_question_type "What is x?".data opts = "image".data) := by
  have hbranch : ∀ stmt opts : List Char, KeywordHit stmt opts →
      (image_indicators.any fun ind =>
        containsSub ind (lowerStr (stmt ++ ' ' :: opts))) = true := by
    intro stmt opts h
    obtain ⟨ind, hmem, hsub⟩ := h
    exact List.any_eq_true.mpr ⟨ind, hmem, containsSub_iff.mpr hsub⟩
  have hbranch' : ∀ stmt opts : List Char, ¬ KeywordHit stmt opts →
      (image_indicators.any fun ind =>
        containsSub ind (lowerStr (stmt ++ ' ' :: opts))) = false := by
    intro stmt opts h
    cases hb : (image_indicators.any fun ind =>
        containsSub ind (lowerStr (stmt ++ ' ' :: opts))) with
    | false => rfl
    | true =>
      obtain ⟨ind, hmem, hsub⟩ := List.any_eq_true.mp hb
      exact absurd ⟨ind, hmem, containsSub_iff.mp hsub⟩ h
  refine ⟨?_, ?_, ?_, ?_, ?_, ?_⟩
  · intro stmt opts h
    simp only [detect_question_type, hbranch stmt opts h, if_true]
  · intro stmt opts h hlen
    simp only [detect_question_type, hbranch' stmt opts h, Bool.false_eq_true,
      if_false, if_pos hlen]
  · intro stmt opts h hlen
    simp only [detect_question_type, hbranch' stmt opts h, Bool.false_eq_true,
      if_false, if_neg (Nat.not_lt.mpr hlen)]
  · intro opts
    have hk : KeywordHit "See the figure below.".data opts :=
      ⟨"see the".data, by decide, by
        unfold lowerStr
        rw [show ("See the figure below.".data ++ ' ' :: opts).map Char.toLower
            = "See the figure below.".data.map Char.toLower
              ++ (' ' :: opts).map Char.toLower from List.map_append _ _ _]
        exact infix_of_append_right (by decide)⟩
    simp only [detect_question_type, hbranch _ _ hk, if_true]
  · decide
  · intro opts
    by_cases hk : KeywordHit "What is x?".data opts
    · simp only [detect_question_type, hbranch _ _ hk, if_true]
    · simp only [detect_question_type, hbranch' _ _ hk, Bool.false_eq_true,
        if_false]
      rw [if_pos (by decide)]

set_option maxRecDepth 16384 in
theorem classifier_keyword_length_heuristic_witness :
    detect_question_type "Refer to the exhibit.".data "opt".data = "image".data ∧
    detect_question_type "This is a statement of at least twenty characters, plain.".data
      "beta".data = "text".data :=
  ⟨classifier_keyword_length_heuristic.1 "Refer to the exhibit.".data "opt".data
    ⟨"exhibit".data, by decide, by decide⟩,
   classifier_keyword_length_heuristic.2.2.1
     "This is a statement of at least twenty characters, plain.".data "beta".data
     (by unfold KeywordHit; decide)
     (by decide)⟩

/-- C5: on well-formed input (text before the first marker with no marker
occurrence, then `k` well-formed segments), the Segmenter yields exactly
`k` pairs in source order: each captured question number is the segment's
digit label and each content block is the text strictly between the end
of that label and the start of the next marker (or the end of the text),
the text before the first marker being discarded. -/
theorem segmenter_wellformed_segmentation
    (pre : List Char) (L : List (List Char × List Char × List Char))
    (hpre : ¬ marker <:+: pre ++ (segsText L).take 11)
    (hL : wellFormedSegs L) :
    segPairs (pre ++ segsText L) = L.map (fun x => (x.2.1, x.2.2)) ∧
    (segPairs (pre ++ segsText L)).length = L.length := by
  have hmain : segPairs (pre ++ segsText L) = L.map (fun x => (x.2.1, x.2.2)) := by
    unfold segPairs
    rw [scanQ_skip hpre, scanQ_segsText L hL]
    dsimp only
    rw [List.map_map]
    apply List.map_congr_left
    intro x hx
    obtain ⟨_, hds⟩ := wf_digit_each L hL x hx
    simp [Function.comp, pyStrip_digits hds]
  exact ⟨hmain, by rw [hmain, List.length_map]⟩

set_option maxRecDepth 16384 in
theorem segmenter_wellformed_segmentation_witness :
    segPairs ("intro ".data
        ++ segsText [([' '], ['1'], " ok ".data), ([' '], ['2', '3'], " fine".data)])
      = [(['1'], " ok ".data), (['2', '3'], " fine".data)] ∧
    (segPairs ("intro ".data
        ++ segsText [([' '], ['1'], " ok ".data), ([' '], ['2', '3'], " fine".data)])).length
      = 2 :=
  segmenter_wellformed_segmentation "intro ".data
    [([' '], ['1'], " ok ".data), ([' '], ['2', '3'], " fine".data)]
    (by decide)
    (by simp only [wellFormedSegs]; decide)

theorem per_record_failure_isolation_witness :
    parse_questions
      "QUESTION NO: 1 ok A. x ANSWER: A QUESTION NO: 2 Explanation: e QUESTION NO: 3 fine too".data
      = processPairs [("1".data, " ok A. x ANSWER: A ".data)]
        ++ processPairs [("3".data, " fine too".data)] :=
  per_record_failure_isolation.2 _ [("1".data, " ok A. x ANSWER: A ".data)]
    [("3".data, " fine too".data)] "2".data " Explanation: e ".data
    (by decide) (by decide)

end PDFQE
